import Mathlib

/-!
Verification development for TinySchedule (src/TinySchedule.py): a shallow
embedding of the Macro engine (record / save / load / play) and the Scheduler
(persistent trigger table, poll loop), together with theorems settling the
frozen claims about the program.

Modelling conventions:
* Python/JSON values are modelled by the inductive `PyVal`; floats are
  modelled as exact rationals (`ℚ`), wall-clock instants as `ℚ` seconds.
* The event dictionaries that the recorder builds (`_on_move`, `_on_click`,
  `_on_scroll`, `_on_press`, `_on_release`) are described by the tagged
  variant `REv`; `encodeEv` produces exactly the dictionary literal the
  source builds for each variant.
* Mutable object state becomes explicit state passing; the capture threads,
  serialized by the recorder's lock, become a sequential trace of
  `RecAct` actions processed by `Macro.step`.
* `list.append` on a value that is not a list would raise in Python, so the
  append path returns `Option` (`none` = crash); reachable recorder states
  always keep `events` a list, which the invariant lemmas establish.
-/

namespace TinySchedule

/-- A JSON-representable Python value (dict keys are strings, as produced by
`json.load` / built by the recorder).  `pnum` carries a float modelled as an
exact rational; `pint` a Python int. -/
inductive PyVal where
  | pnull
  | pbool (b : Bool)
  | pint (n : Int)
  | pnum (q : ℚ)
  | pstr (s : String)
  | plist (xs : List PyVal)
  | pdict (kvs : List (String × PyVal))

/-- Key kinds as recorded by `_on_press`/`_on_release`: a printable character
(`key.char` succeeded) or a named special key. -/
inductive KKind where
  | char
  | special
deriving DecidableEq

/-- A recorded event, the tagged-variant view of the dictionaries the recorder
appends (fields in source order: `t`, `type`, then kind-specific fields). -/
inductive REv where
  | move (t : ℚ) (x y : Int)
  | click (t : ℚ) (x y : Int) (button : String) (pressed : Bool)
  | scroll (t : ℚ) (x y : Int) (dx dy : Int)
  | key (t : ℚ) (press : Bool) (kind : KKind) (k : String)
deriving DecidableEq

/-- The recorded delay (`"t"` field) of a structured event. -/
def REv.t : REv → ℚ
  | .move t _ _ => t
  | .click t _ _ _ _ => t
  | .scroll t _ _ _ _ => t
  | .key t _ _ _ => t

/-- The exact dictionary literal the source builds for each event
(`_on_move` line 85, `_on_click` line 88, `_on_scroll` line 91,
`_on_press`/`_on_release` lines 100/109). -/
def encodeEv : REv → PyVal
  | .move t x y =>
      .pdict [("t", .pnum t), ("type", .pstr "move"), ("x", .pint x), ("y", .pint y)]
  | .click t x y b p =>
      .pdict [("t", .pnum t), ("type", .pstr "click"), ("x", .pint x), ("y", .pint y),
              ("button", .pstr b), ("pressed", .pbool p)]
  | .scroll t x y dx dy =>
      .pdict [("t", .pnum t), ("type", .pstr "scroll"), ("x", .pint x), ("y", .pint y),
              ("dx", .pint dx), ("dy", .pint dy)]
  | .key t p kind k =>
      .pdict [("t", .pnum t), ("type", .pstr "key"),
              ("action", .pstr (if p then "press" else "release")),
              ("kind", .pstr (match kind with | .char => "char" | .special => "special")),
              ("key", .pstr k)]

/-- Modelled from the spec: a recognizer for a single well-formed event record
(spec §3 data model / §6 macro file format: `delay` plus a `type`
discriminator plus the kind-specific fields).  The source performs no such
validation; this definition exists to compare the spec's notion of
"recognized event record" with what `load` actually accepts. -/
def decodeEv : PyVal → Option REv
  | .pdict [("t", .pnum t), ("type", .pstr "move"), ("x", .pint x), ("y", .pint y)] =>
      some (.move t x y)
  | .pdict [("t", .pnum t), ("type", .pstr "click"), ("x", .pint x), ("y", .pint y),
            ("button", .pstr b), ("pressed", .pbool p)] =>
      some (.click t x y b p)
  | .pdict [("t", .pnum t), ("type", .pstr "scroll"), ("x", .pint x), ("y", .pint y),
            ("dx", .pint dx), ("dy", .pint dy)] =>
      some (.scroll t x y dx dy)
  | .pdict [("t", .pnum t), ("type", .pstr "key"), ("action", .pstr a),
            ("kind", .pstr kd), ("key", .pstr k)] =>
      if a = "press" then
        if kd = "char" then some (.key t true .char k)
        else if kd = "special" then some (.key t true .special k)
        else none
      else if a = "release" then
        if kd = "char" then some (.key t false .char k)
        else if kd = "special" then some (.key t false .special k)
        else none
      else none
  | _ => none

/-- Decode a list of event values, failing if any element is unrecognized. -/
def decodeList : List PyVal → Option (List REv)
  | [] => some []
  | e :: rest =>
    match decodeEv e, decodeList rest with
    | some r, some rs => some (r :: rs)
    | _, _ => none

/-- Modelled from the spec: a well-formed sequence of recognized event records
(spec §4.3/§6) is a JSON array each of whose elements is a recognized event
record. -/
def decodeEvents : PyVal → Option (List REv)
  | .plist xs => decodeList xs
  | _ => none

/-- Modelled from the spec: Boolean form of "the content is a well-formed
sequence of recognized event records". -/
def recognizedEventSeq (j : PyVal) : Bool :=
  (decodeEvents j).isSome

/-- The `Macro` object state (fields from `Macro.__init__`, lines 30–40):
`events` is the raw Python value held in `self.events` (a list in every state
the recorder produces, but `load` stores whatever `json.load` returned),
`recording`/`paused` the two mode flags, `lastTs` models `self._last_ts`
(`None` initially), `stopFlag` the `threading.Event` `self._stop_flag`, and
`controlKeys` the set `self._control_keys` (key identities as strings). -/
structure Macro where
  events : PyVal
  recording : Bool
  paused : Bool
  lastTs : Option ℚ
  stopFlag : Bool
  controlKeys : List String

/-- `Macro.__init__`: empty list, not recording, not paused, no timestamp,
stop flag clear, no control keys. -/
def Macro.init : Macro :=
  { events := .plist [], recording := false, paused := false,
    lastTs := none, stopFlag := false, controlKeys := [] }

/-- `start_recording` (lines 42–54): no-op while already recording; otherwise
clears the event list and the stop flag, starts recording unpaused and sets
`_last_ts = time.time()`. -/
def Macro.startRecording (m : Macro) (now : ℚ) : Macro :=
  if m.recording then m
  else { m with events := .plist [], stopFlag := false,
                recording := true, paused := false, lastTs := some now }

/-- `stop_recording` (lines 56–64): no-op when not recording; otherwise stops
(listener teardown has no modelled state). -/
def Macro.stopRecording (m : Macro) : Macro :=
  if m.recording then { m with recording := false } else m

/-- `pause_toggle` (lines 66–70): while recording, flips `paused` and resets
`_last_ts = time.time()`; otherwise a no-op. -/
def Macro.pauseToggle (m : Macro) (now : ℚ) : Macro :=
  if m.recording then { m with paused := !m.paused, lastTs := some now } else m

/-- The delay computed by `_dt` (lines 72–76):
`dt = now - self._last_ts if self._last_ts else 0` — note the Python
truthiness test, under which both `None` and `0.0` yield `0`. -/
def Macro.dtOf (lastTs : Option ℚ) (now : ℚ) : ℚ :=
  match lastTs with
  | none => 0
  | some t => if t = 0 then 0 else now - t

/-- `_rec` (lines 78–82): drop the item unless recording and not paused;
otherwise `self.events.append(item)`.  Appending to a non-list value would
raise `AttributeError` in Python, modelled as `none`. -/
def Macro.recItem (m : Macro) (item : PyVal) : Option Macro :=
  if !m.recording || m.paused then some m
  else
    match m.events with
    | .plist xs => some { m with events := .plist (xs ++ [item]) }
    | _ => none

/-- The common shape of every `_on_*` callback: compute `self._dt()` (which
always updates `_last_ts`, even for a notification that `_rec` then drops),
then `self._rec(item)`. -/
def Macro.notify (m : Macro) (now : ℚ) (item : ℚ → PyVal) : Option Macro :=
  let dt := Macro.dtOf m.lastTs now
  Macro.recItem { m with lastTs := some now } (item dt)

/-- `_on_move` (lines 84–85). -/
def Macro.onMove (m : Macro) (now : ℚ) (x y : Int) : Option Macro :=
  m.notify now (fun dt => encodeEv (.move dt x y))

/-- `_on_click` (lines 87–88). -/
def Macro.onClick (m : Macro) (now : ℚ) (x y : Int) (b : String) (p : Bool) :
    Option Macro :=
  m.notify now (fun dt => encodeEv (.click dt x y b p))

/-- `_on_scroll` (lines 90–91). -/
def Macro.onScroll (m : Macro) (now : ℚ) (x y : Int) (dx dy : Int) : Option Macro :=
  m.notify now (fun dt => encodeEv (.scroll dt x y dx dy))

/-- `_on_press` / `_on_release` (lines 93–109): a control key returns before
`_dt` runs (so it neither records nor touches `_last_ts`); any other key is
recorded with its kind and value. -/
def Macro.onKey (m : Macro) (now : ℚ) (press : Bool) (kid : String)
    (kind : KKind) (k : String) : Option Macro :=
  if kid ∈ m.controlKeys then some m
  else m.notify now (fun dt => encodeEv (.key dt press kind k))

/-- One serialized action arriving at the recorder: a control call
(`start_recording` / `stop_recording` / `pause_toggle`) or one input
notification.  `now` is the `time.time()` value observed by that action. -/
inductive RecAct where
  | start (now : ℚ)
  | stop
  | pauseToggle (now : ℚ)
  | moveN (now : ℚ) (x y : Int)
  | clickN (now : ℚ) (x y : Int) (b : String) (p : Bool)
  | scrollN (now : ℚ) (x y : Int) (dx dy : Int)
  | keyN (now : ℚ) (press : Bool) (kid : String) (kind : KKind) (k : String)

/-- The wall-clock instant of an action (`stop_recording` reads no clock). -/
def RecAct.time? : RecAct → Option ℚ
  | .stop => none
  | .start n => some n
  | .pauseToggle n => some n
  | .moveN n _ _ => some n
  | .clickN n _ _ _ _ => some n
  | .scrollN n _ _ _ _ => some n
  | .keyN n _ _ _ _ => some n

/-- Dispatch one serialized recorder action. -/
def Macro.step (m : Macro) : RecAct → Option Macro
  | .start n => some (m.startRecording n)
  | .stop => some m.stopRecording
  | .pauseToggle n => some (m.pauseToggle n)
  | .moveN n x y => m.onMove n x y
  | .clickN n x y b p => m.onClick n x y b p
  | .scrollN n x y dx dy => m.onScroll n x y dx dy
  | .keyN n pr kid kind k => m.onKey n pr kid kind k

/-- Run a serialized trace of recorder actions. -/
def Macro.run (m : Macro) : List RecAct → Option Macro
  | [] => some m
  | a :: rest => (m.step a).bind fun m' => m'.run rest

/-- Times along a trace are at least `lo` and nondecreasing (the recorder's
clock reads are monotone within one serialized history). -/
def monoB (lo : ℚ) : List RecAct → Bool
  | [] => true
  | a :: rest =>
    match RecAct.time? a with
    | none => monoB lo rest
    | some n => decide (lo ≤ n) && monoB n rest

/-- The trace contains no `start_recording` call. -/
def noStartB : List RecAct → Bool
  | [] => true
  | RecAct.start _ :: _ => false
  | _ :: rest => noStartB rest

/-- The delay stored in a (recognized) event value. -/
def evT (e : PyVal) : ℚ :=
  match decodeEv e with
  | some r => r.t
  | none => 0

/-- Total recorded delay of a list of event values. -/
def sumT (xs : List PyVal) : ℚ :=
  (xs.map evT).sum

/-- Every element is a recognized event record with nonnegative delay. -/
def allDelaysNonneg (xs : List PyVal) : Prop :=
  ∀ e ∈ xs, ∃ r, decodeEv e = some r ∧ 0 ≤ REv.t r

/-- The trace frontier after an action: its own time if it has one. -/
def RecAct.timeOr (a : RecAct) (lo : ℚ) : ℚ :=
  match a.time? with
  | some n => n
  | none => lo

/-- Recorder invariant for nonnegative delays: the delay anchor `_last_ts`
never exceeds the trace frontier `lo`, and `events` is a list of recognized
records all of whose delays are nonnegative. -/
def InvNN (lo : ℚ) (m : Macro) : Prop :=
  (∀ t, m.lastTs = some t → t ≤ lo) ∧
  ∃ xs, m.events = PyVal.plist xs ∧ allDelaysNonneg xs

/-- Recorder invariant after a resume at instant `r` (with `xs0` the events
present at the resume): the delay anchor stays in `[r, lo]` and positive, and
the total delay recorded since the resume is at most `anchor − r`, so none of
the paused interval (which ended at `r`) is ever charged to a recorded
delay. -/
def InvResume (r lo : ℚ) (xs0 : List PyVal) (m : Macro) : Prop :=
  ∃ t, m.lastTs = some t ∧ r ≤ t ∧ t ≤ lo ∧ 0 < t ∧
    ∃ ys, m.events = PyVal.plist (xs0 ++ ys) ∧ allDelaysNonneg ys ∧
      sumT ys ≤ t - r

/-! ### Macro store (save / load) -/

/-- What a file on disk holds, seen through `open` + `json.load`:
the file may be missing (`open` raises `FileNotFoundError`), unreadable
(`open`/read raises an `OSError`), readable but not valid JSON
(`json.load` raises `json.JSONDecodeError`, a `ValueError`), or a valid JSON
document. -/
inductive FileContent where
  | missing
  | unreadable
  | notJson
  | doc (j : PyVal)

/-- The file system: a mapping from paths to file contents. -/
abbrev FS := String → FileContent

/-- The error taxonomy of the spec (§7) for store operations: `ioError`
covers `OSError`/`IOError`, `formatError` covers malformed content
(`ValueError`/`json.JSONDecodeError`). -/
inductive LoadErr where
  | ioError
  | formatError
deriving DecidableEq

/-- `Macro.save` (lines 111–113): `json.dump(self.events, f)` — writes the
current events value as the file's JSON document. -/
def Macro.save (m : Macro) (fs : FS) (path : String) : FS :=
  fun p => if p = path then .doc m.events else fs p

/-- `Macro.load` (lines 115–117): `self.events = json.load(f)`.  `open`
raises on a missing/unreadable file and `json.load` raises on content that is
not valid JSON; both propagate.  On success the parsed document — whatever
JSON value it is — is assigned to `self.events`. -/
def Macro.load (m : Macro) (fs : FS) (path : String) : Except LoadErr Macro :=
  match fs path with
  | .missing => .error .ioError
  | .unreadable => .error .ioError
  | .notJson => .error .formatError
  | .doc j => .ok { m with events := j }

/-- The macro state after a call to `load` under Python exception semantics:
if `load` raised, the assignment to `self.events` never executed, so the
object is unchanged; otherwise it is the returned state. -/
def Macro.loadState (m : Macro) (fs : FS) (path : String) : Macro :=
  match Macro.load m fs path with
  | .ok m' => m'
  | .error _ => m

/-! ### Player -/

/-- One observable playback action driven into the OS input subsystem
(or the sleep between events).  `kpress`/`krelease` record whether the key
object was a character (`ch = true`) or a resolved named key. -/
inductive PAct where
  | sleep (d : ℚ)
  | setPos (x y : Int)
  | mpress (b : String)
  | mrelease (b : String)
  | mscroll (dx dy : Int)
  | kpress (ch : Bool) (k : String)
  | krelease (ch : Bool) (k : String)
deriving DecidableEq

/-- Whether `_first_xy` (lines 122–126) considers the event positional:
`ev.get("type") in ("move", "click", "scroll")`. -/
def isPositional : REv → Bool
  | .move _ _ _ => true
  | .click _ _ _ _ _ => true
  | .scroll _ _ _ _ _ => true
  | .key _ _ _ _ => false

/-- The coordinates `_first_xy` would read off a positional event. -/
def coordsOf : REv → Option (Int × Int)
  | .move _ x y => some (x, y)
  | .click _ x y _ _ => some (x, y)
  | .scroll _ x y _ _ => some (x, y)
  | .key _ _ _ _ => none

/-- `_first_xy` (lines 122–126): the coordinates of the first positional
event, `None` if there is none. -/
def firstXY : List REv → Option (Int × Int)
  | [] => none
  | .move _ x y :: _ => some (x, y)
  | .click _ x y _ _ :: _ => some (x, y)
  | .scroll _ x y _ _ :: _ => some (x, y)
  | .key _ _ _ _ :: rest => firstXY rest

/-- The speed divisor of `play` (line 143): `max(0.001, float(speed))`. -/
def playDivisor (speed : ℚ) : ℚ :=
  max (1 / 1000) speed

/-- The number of loop iterations of `play` (line 137):
`range(max(1, int(loops)))`. -/
def loopCount (loops : Int) : ℕ :=
  (max 1 loops).toNat

/-- The injection actions one event produces (lines 146–170), after its
sleep.  `vk k` models whether `getattr(keyboard.Key, k, None)` resolves
(`k` names a real special key); an unresolved or suppressed special key is
skipped (`continue`). -/
def evActs (vk : String → Bool) (suppress : List String) : REv → List PAct
  | .move _ x y => [.setPos x y]
  | .click _ x y b p =>
      [.setPos x y, if p then .mpress b else .mrelease b]
  | .scroll _ x y dx dy => [.setPos x y, .mscroll dx dy]
  | .key _ press kind k =>
      match kind with
      | .char => [if press then .kpress true k else .krelease true k]
      | .special =>
          if vk k && !(suppress.contains k) then
            [if press then .kpress false k else .krelease false k]
          else []

/-- Playback state while `play` runs: the actions emitted so far, the current
value of the shared stop flag, and a counter of flag checks performed (used
to index the abort schedule). -/
structure PSt where
  acts : List PAct
  flag : Bool
  idx : ℕ
deriving DecidableEq

/-- One `self._stop_flag.is_set()` check.  `abort i` models whether another
thread called `abort_playback` between the `i`-th check and its predecessor;
the flag stays set once set. -/
def pcheck (abort : ℕ → Bool) (s : PSt) : Bool × PSt :=
  let f := s.flag || abort s.idx
  (f, { s with flag := f, idx := s.idx + 1 })

/-- The inner `for ev in self.events` loop of `play` (lines 140–170): check
the stop flag before each event, sleep `t = ev["t"] / max(0.001, speed)` when
positive, then inject the event's actions. -/
def playEvs (vk : String → Bool) (suppress : List String) (speed : ℚ)
    (abort : ℕ → Bool) : List REv → PSt → PSt
  | [], s => s
  | ev :: rest, s =>
    let c := pcheck abort s
    if c.1 then c.2
    else
      let t := ev.t / playDivisor speed
      let s2 := if 0 < t then { c.2 with acts := c.2.acts ++ [PAct.sleep t] } else c.2
      let s3 := { s2 with acts := s2.acts ++ evActs vk suppress ev }
      playEvs vk suppress speed abort rest s3

/-- The outer `for _ in range(max(1, int(loops)))` loop of `play`
(lines 137–139): check the stop flag at the top of each iteration, then run
the inner event loop. -/
def playLoopsAux (vk : String → Bool) (suppress : List String) (speed : ℚ)
    (abort : ℕ → Bool) (evs : List REv) : ℕ → PSt → PSt
  | 0, s => s
  | n + 1, s =>
    let c := pcheck abort s
    if c.1 then c.2
    else playLoopsAux vk suppress speed abort evs n
          (playEvs vk suppress speed abort evs c.2)

/-- The initial pointer move of `play` (lines 134–136): if `_first_xy` found
a positional event, set the pointer there (a nonempty tuple is truthy). -/
def initMove (evs : List REv) : List PAct :=
  match firstXY evs with
  | some (x, y) => [PAct.setPos x y]
  | none => []

/-- `Macro.play` (lines 128–170) over the structured event view: an empty
sequence returns immediately (before the stop flag is even cleared);
otherwise the flag is cleared, the initial pointer move emitted, and the
loops run.  Returns the final stop-flag value and the emitted action list.
`stopFlag` is the flag value left over from before the call. -/
def playRun (evs : List REv) (speed : ℚ) (loops : Int) (suppress : List String)
    (vk : String → Bool) (abort : ℕ → Bool) (stopFlag : Bool) :
    Bool × List PAct :=
  match evs with
  | [] => (stopFlag, [])
  | _ :: _ =>
    let s0 : PSt := { acts := initMove evs, flag := false, idx := 0 }
    let s := playLoopsAux vk suppress speed abort evs (loopCount loops) s0
    (s.flag, s.acts)

/-- The actions of one un-cancelled pass over the event list (reference form
used to state that the sequence is replayed once per loop iteration). -/
def oneLoop (vk : String → Bool) (suppress : List String) (speed : ℚ)
    (evs : List REv) : List PAct :=
  evs.flatMap fun ev =>
    (if 0 < ev.t / playDivisor speed then [PAct.sleep (ev.t / playDivisor speed)] else [])
      ++ evActs vk suppress ev

/-! ### Scheduler

The trigger records the Scheduler stores (`Scheduler.add`, lines 391–404) are
dictionaries `{"id", "title", "when", "macro", "speed", "loops"}`.  `SEvent`
is their structured view; the ISO-8601 `when` string is modelled by the
instant it denotes (zero-padded ISO-8601 timestamps of naive `datetime`s
compare lexicographically in the same order as the instants they denote, so
both the string sort key of `list_all` and the parsed-`datetime` comparison
of `_loop` are modelled by `≤` on this field).  The Python dict `_events`
preserves insertion order and is modelled as an association list. -/

structure SEvent where
  id : String
  title : String
  when : ℚ
  macroPath : String
  speed : ℚ
  loops : Int
deriving DecidableEq

/-- The Scheduler's in-memory table: trigger id to record, in insertion
order (Python dict semantics). -/
abbrev STable := List (String × SEvent)

/-- `Scheduler.load` (lines 426–431): read and parse the persistence file;
`except Exception: self._events = {}` — every failure (missing file,
unreadable file, content that is not valid JSON) yields the empty table and
no error escapes.  `Scheduler.__init__` (line 385) calls this before
starting the poll thread, so this is also the constructor's table. -/
def Scheduler.loadTable (fs : FS) (path : String) : PyVal :=
  match fs path with
  | .doc j => j
  | .missing => .pdict []
  | .unreadable => .pdict []
  | .notJson => .pdict []

/-- The ordering `list_all` sorts by (the `"when"` field). -/
def whenLE (a b : SEvent) : Prop :=
  a.when ≤ b.when

instance : DecidableRel whenLE :=
  fun a b => inferInstanceAs (Decidable (a.when ≤ b.when))

instance : IsTotal SEvent whenLE :=
  ⟨fun a b => le_total a.when b.when⟩

instance : IsTrans SEvent whenLE :=
  ⟨fun _ _ _ h1 h2 => le_trans h1 h2⟩

/-- `Scheduler.list_all` (lines 412–416): copy the table's values and sort
them ascending by the `"when"` key (`list.sort` is a stable comparison sort;
`List.insertionSort` models it). -/
def Scheduler.listAll (tbl : STable) : List SEvent :=
  List.insertionSort whenLE (tbl.map Prod.snd)

/-- The due scan of `_loop` (lines 437–445): triggers whose `when` has
passed, in table encounter order; they are deleted from the table in the
same critical section. -/
def Scheduler.dueOf (now : ℚ) (tbl : STable) : List SEvent :=
  (tbl.filter fun kv => decide (kv.2.when ≤ now)).map Prod.snd

/-- The table remaining after the due scan removed the due triggers. -/
def Scheduler.remainOf (now : ℚ) (tbl : STable) : STable :=
  tbl.filter fun kv => !decide (kv.2.when ≤ now)

/-- Errors that can escape `_run_event`: the macro file turned unreadable
(`IOError` from `open`), its content is malformed (raises during
`json.load` or while `play` interprets it), or the input-injection layer
fails (`DeviceError`, modelled by the oracle below). -/
inductive FireErr where
  | ioError
  | formatError
  | deviceError
deriving DecidableEq

/-- The hotkey suppression set passed by `_run_event` (line 459):
`[Key.f8, Key.f7, Key.f9, Key.f10]` by name. -/
def schedSuppress : List String :=
  ["f8", "f7", "f9", "f10"]

/-- `Scheduler._run_event` (lines 452–460): construct a fresh `Macro`
(stop flag clear), skip silently when `os.path.isfile` is false, otherwise
load the macro file and play it with the trigger's speed/loops and the
control-key suppression set.  `injErr` is an oracle for device-level
injection failures during this firing; content that does not decode to
recognized event records raises while being interpreted and is modelled as
a `formatError`. -/
def Scheduler.runEvent (fs : FS) (vk : String → Bool)
    (injErr : SEvent → Option FireErr) (e : SEvent) :
    Except FireErr (List PAct) :=
  match fs e.macroPath with
  | .missing => .ok []
  | .unreadable => .error .ioError
  | .notJson => .error .formatError
  | .doc j =>
    match decodeEvents j with
    | none => .error .formatError
    | some evs =>
      match injErr e with
      | some err => .error err
      | none => .ok (playRun evs e.speed e.loops schedSuppress vk (fun _ => false) false).2

/-- The per-trigger `try: self._run_event(e) except Exception: pass` of
`_loop` (lines 446–450): an outcome is recorded and the exception, if any,
is swallowed. -/
inductive FireOutcome where
  | fired (acts : List PAct)
  | caught (err : FireErr)
deriving DecidableEq

/-- Fire one due trigger with the loop's exception guard. -/
def Scheduler.fireOne (fs : FS) (vk : String → Bool)
    (injErr : SEvent → Option FireErr) (e : SEvent) : FireOutcome :=
  match Scheduler.runEvent fs vk injErr e with
  | .ok acts => .fired acts
  | .error err => .caught err

/-- Fire every due trigger of one cycle, in encounter order; each firing is
guarded individually, so each one is attempted regardless of the others'
outcomes. -/
def Scheduler.fireAll (fs : FS) (vk : String → Bool)
    (injErr : SEvent → Option FireErr) : List SEvent → List FireOutcome
  | [] => []
  | e :: rest =>
      Scheduler.fireOne fs vk injErr e :: Scheduler.fireAll fs vk injErr rest

/-- One poll cycle of `_loop` (lines 433–450): split the table into due and
remaining triggers, then fire the due ones outside the critical section. -/
def Scheduler.pollCycle (fs : FS) (vk : String → Bool)
    (injErr : SEvent → Option FireErr) (now : ℚ) (tbl : STable) :
    STable × List FireOutcome :=
  (Scheduler.remainOf now tbl,
   Scheduler.fireAll fs vk injErr (Scheduler.dueOf now tbl))

/-- The poll loop across successive wake-ups: each element of `times` is the
`_now()` of one cycle; the outcomes of every cycle are collected. -/
def Scheduler.runLoop (fs : FS) (vk : String → Bool)
    (injErr : SEvent → Option FireErr) :
    List ℚ → STable → STable × List (List FireOutcome)
  | [], tbl => (tbl, [])
  | now :: rest, tbl =>
      let c := Scheduler.pollCycle fs vk injErr now tbl
      let r := Scheduler.runLoop fs vk injErr rest c.1
      (r.1, c.2 :: r.2)

/-! ## Theorems -/

theorem decodeEv_encodeEv (e : REv) : decodeEv (encodeEv e) = some e := by
  cases e with
  | move t x y => rfl
  | click t x y b p => rfl
  | scroll t x y dx dy => rfl
  | key t p kind k => cases p <;> cases kind <;> rfl

theorem decodeEvents_encode (evs : List REv) :
    decodeEvents (PyVal.plist (evs.map encodeEv)) = some evs := by
  induction evs with
  | nil => rfl
  | cons e rest ih =>
      simp only [decodeEvents] at ih ⊢
      simp only [List.map_cons, decodeList, decodeEv_encodeEv, ih]

/-- C2 (amended): `Macro.load` raises a `FormatError` if and only if the file
content is not syntactically valid JSON; it performs no validation of the
event-record structure, so any parseable JSON document — a recognized event
sequence or not — is accepted and assigned to `events`; a missing or
unreadable file raises an `IOError`; all these errors propagate to the
caller rather than being swallowed. -/
theorem c2_load_formatError_iff_invalid_json :
    ∀ (m : Macro) (fs : FS) (path : String),
      (Macro.load m fs path = .error .formatError ↔ fs path = .notJson) ∧
      ((∃ e, Macro.load m fs path = .error e) ↔
        (fs path = .missing ∨ fs path = .unreadable ∨ fs path = .notJson)) ∧
      (∀ j, fs path = .doc j →
        Macro.load m fs path = .ok { m with events := j }) := by
  intro m fs path
  refine ⟨?_, ?_, ?_⟩ <;> cases h : fs path <;> simp [Macro.load, h]

/-- C2, counterexample to the claim as stated: the file content `42` is valid
JSON but not a well-formed sequence of recognized event records, yet `load`
succeeds (no `FormatError`) and stores `42` as the events value. -/
theorem c2_counterexample :
    Macro.load Macro.init (fun _ => FileContent.doc (PyVal.pint 42)) "macro.json"
        = Except.ok { Macro.init with events := PyVal.pint 42 } ∧
      recognizedEventSeq (PyVal.pint 42) = false :=
  ⟨rfl, rfl⟩

/-- C2, witness: on a concrete well-formed JSON document `load` succeeds and
stores the document. -/
theorem c2_witness :
    ((fun _ => FileContent.doc PyVal.pnull : FS) "p" = FileContent.doc PyVal.pnull) ∧
      Macro.load Macro.init (fun _ => FileContent.doc PyVal.pnull) "p"
        = Except.ok { Macro.init with events := PyVal.pnull } :=
  ⟨rfl, (c2_load_formatError_iff_invalid_json Macro.init (fun _ => .doc .pnull) "p").2.2
          PyVal.pnull rfl⟩

/-- C3: the save/load round-trip is exact — loading a path just saved
returns exactly the saved events value; in particular an encoded recorded
sequence decodes back to the identical ordered sequence, so replaying the
loaded sequence is replaying the original. -/
theorem c3_save_load_roundtrip :
    (∀ (m m' : Macro) (fs : FS) (path : String),
        Macro.load m' (Macro.save m fs path) path
          = Except.ok { m' with events := m.events }) ∧
    (∀ evs : List REv,
        decodeEvents (PyVal.plist (List.map encodeEv evs)) = some evs) := by
  constructor
  · intro m m' fs path
    simp [Macro.save, Macro.load]
  · exact decodeEvents_encode

/-- C5: during a poll cycle each due trigger is fired by loading its macro
from its `macroPath`, skipping silently (no error, no actions) when that
file no longer exists; every due trigger of the cycle is processed in
encounter order with its own exception guard, so a failure firing one
neither prevents the remaining due triggers from firing nor terminates the
polling loop (every subsequent cycle still runs). -/
theorem c5_firing_failures_isolated :
    (∀ (fs : FS) (vk : String → Bool) (injErr : SEvent → Option FireErr)
        (e : SEvent), fs e.macroPath = .missing →
        Scheduler.runEvent fs vk injErr e = .ok []) ∧
    (∀ (fs : FS) (vk : String → Bool) (injErr : SEvent → Option FireErr)
        (e : SEvent) (rest : List SEvent),
        Scheduler.fireAll fs vk injErr (e :: rest)
          = Scheduler.fireOne fs vk injErr e :: Scheduler.fireAll fs vk injErr rest) ∧
    (∀ (fs : FS) (vk : String → Bool) (injErr : SEvent → Option FireErr)
        (due : List SEvent),
        (Scheduler.fireAll fs vk injErr due).length = due.length) ∧
    (∀ (fs : FS) (vk : String → Bool) (injErr : SEvent → Option FireErr)
        (times : List ℚ) (tbl : STable),
        (Scheduler.runLoop fs vk injErr times tbl).2.length = times.length) := by
  refine ⟨?_, ?_, ?_, ?_⟩
  · intro fs vk injErr e h
    simp [Scheduler.runEvent, h]
  · intro fs vk injErr e rest
    rfl
  · intro fs vk injErr due
    induction due with
    | nil => rfl
    | cons e rest ih => simp [Scheduler.fireAll, ih]
  · intro fs vk injErr times
    induction times with
    | nil => intro tbl; rfl
    | cons now rest ih =>
        intro tbl
        simp [Scheduler.runLoop, ih]

/-- C5, witness: a due trigger whose macro file is missing is skipped
silently on a concrete input. -/
theorem c5_witness :
    ((fun _ => FileContent.missing : FS)
        (SEvent.mk "i" "t" 0 "m.json" 1 1).macroPath = FileContent.missing) ∧
      Scheduler.runEvent (fun _ => FileContent.missing) (fun _ => true)
          (fun _ => none) (SEvent.mk "i" "t" 0 "m.json" 1 1) = .ok [] :=
  ⟨rfl, c5_firing_failures_isolated.1 (fun _ => .missing) (fun _ => true)
          (fun _ => none) (SEvent.mk "i" "t" 0 "m.json" 1 1) rfl⟩

/-- C6: on Scheduler construction the trigger table is loaded from the
persistence file and every load failure — missing file, unreadable file,
content that is not valid JSON — yields the empty table, with no error
propagating (the loader is a total function); a successfully parsed
document becomes the table. -/
theorem c6_scheduler_load_swallows_failures :
    ∀ (fs : FS) (path : String),
      ((fs path = .missing ∨ fs path = .unreadable ∨ fs path = .notJson) →
        Scheduler.loadTable fs path = .pdict []) ∧
      (∀ j, fs path = .doc j → Scheduler.loadTable fs path = j) := by
  intro fs path
  constructor
  · rintro (h | h | h) <;> simp [Scheduler.loadTable, h]
  · intro j h
    simp [Scheduler.loadTable, h]

/-- C6, witness: a missing persistence file yields the empty table on a
concrete input. -/
theorem c6_witness :
    ((fun _ => FileContent.missing : FS) "sched.json" = FileContent.missing ∨
        (fun _ => FileContent.missing : FS) "sched.json" = FileContent.unreadable ∨
        (fun _ => FileContent.missing : FS) "sched.json" = FileContent.notJson) ∧
      Scheduler.loadTable (fun _ => FileContent.missing) "sched.json" = .pdict [] :=
  ⟨Or.inl rfl,
   (c6_scheduler_load_swallows_failures (fun _ => .missing) "sched.json").1 (Or.inl rfl)⟩

/-- C7: `list_all` returns exactly the triggers currently in the table (a
permutation of the table's values, hence the same set, with multiplicity)
ordered by ascending `when`. -/
theorem c7_listAll_sorted :
    ∀ tbl : STable,
      List.Perm (Scheduler.listAll tbl) (tbl.map Prod.snd) ∧
        List.Sorted whenLE (Scheduler.listAll tbl) :=
  fun tbl =>
    ⟨List.perm_insertionSort whenLE (tbl.map Prod.snd),
     List.sorted_insertionSort whenLE (tbl.map Prod.snd)⟩

/-- C10: `Macro.load` is atomic with respect to `events`: whenever it raises
(missing or unreadable file, or unparseable content) the macro is left
exactly as before the call, and it is replaced exactly when parsing fully
succeeded, by the parsed document. -/
theorem c10_load_atomic :
    ∀ (m : Macro) (fs : FS) (path : String),
      (∀ e, Macro.load m fs path = .error e → Macro.loadState m fs path = m) ∧
      (∀ m', Macro.load m fs path = .ok m' →
        ∃ j, fs path = .doc j ∧ m' = { m with events := j }) := by
  intro m fs path
  constructor
  · intro e h
    simp [Macro.loadState, h]
  · intro m' h
    cases hf : fs path <;> simp [Macro.load, hf] at h
    exact ⟨_, rfl, h.symm⟩

/-- C10, witness: a load from a missing file errors and leaves a concrete
macro unchanged. -/
theorem c10_witness :
    (Macro.load Macro.init (fun _ => FileContent.missing) "x.json"
        = Except.error LoadErr.ioError) ∧
      Macro.loadState Macro.init (fun _ => FileContent.missing) "x.json" = Macro.init :=
  ⟨rfl, (c10_load_atomic Macro.init (fun _ => .missing) "x.json").1 LoadErr.ioError rfl⟩

/-! ### Player lemmas -/

theorem playEvs_noabort (vk : String → Bool) (sup : List String) (speed : ℚ) :
    ∀ (evs : List REv) (s : PSt), s.flag = false →
      playEvs vk sup speed (fun _ => false) evs s
        = ⟨s.acts ++ oneLoop vk sup speed evs, false, s.idx + evs.length⟩ := by
  intro evs
  induction evs with
  | nil =>
      intro s hs
      obtain ⟨acts, flag, idx⟩ := s
      subst hs
      simp [playEvs, oneLoop]
  | cons ev rest ih =>
      intro s hs
      obtain ⟨acts, flag, idx⟩ := s
      simp only at hs
      subst hs
      simp only [playEvs, pcheck, Bool.false_or, oneLoop, List.flatMap_cons]
      by_cases ht : 0 < ev.t / playDivisor speed
      · simp only [ht, if_true, if_false, Bool.false_eq_true, ite_false]
        rw [ih _ rfl]
        simp only [oneLoop, PSt.mk.injEq, List.length_cons]
        refine ⟨by simp [List.append_assoc], trivial, by omega⟩
      · simp only [ht, if_false, Bool.false_eq_true, ite_false]
        rw [ih _ rfl]
        simp only [oneLoop, PSt.mk.injEq, List.length_cons]
        refine ⟨by simp [ht, List.append_assoc], trivial, by omega⟩

theorem playLoopsAux_noabort (vk : String → Bool) (sup : List String) (speed : ℚ)
    (evs : List REv) :
    ∀ (n : ℕ) (s : PSt), s.flag = false →
      playLoopsAux vk sup speed (fun _ => false) evs n s
        = ⟨s.acts ++ (List.replicate n (oneLoop vk sup speed evs)).flatten, false,
           s.idx + n * (evs.length + 1)⟩ := by
  intro n
  induction n with
  | zero =>
      intro s hs
      obtain ⟨acts, flag, idx⟩ := s
      subst hs
      simp [playLoopsAux]
  | succ n ih =>
      intro s hs
      obtain ⟨acts, flag, idx⟩ := s
      simp only at hs
      subst hs
      simp only [playLoopsAux, pcheck, Bool.false_or, Bool.false_eq_true, ite_false]
      rw [playEvs_noabort vk sup speed evs _ rfl, ih _ rfl]
      simp only [List.replicate_succ, List.flatten_cons, PSt.mk.injEq]
      refine ⟨by simp [List.append_assoc], trivial, by ring⟩

theorem playEvs_shift (vk : String → Bool) (sup : List String) (speed : ℚ)
    (ab : ℕ → Bool) :
    ∀ (evs : List REv) (a0 : List PAct) (s : PSt),
      playEvs vk sup speed ab evs ⟨a0 ++ s.acts, s.flag, s.idx⟩
        = ⟨a0 ++ (playEvs vk sup speed ab evs s).acts,
           (playEvs vk sup speed ab evs s).flag,
           (playEvs vk sup speed ab evs s).idx⟩ := by
  intro evs
  induction evs with
  | nil => intro a0 s; rfl
  | cons ev rest ih =>
      intro a0 s
      obtain ⟨acts, flag, idx⟩ := s
      simp only [playEvs, pcheck]
      by_cases hf : (flag || ab idx) = true
      · simp [hf]
      · simp only [Bool.not_eq_true] at hf
        simp only [hf, Bool.false_eq_true, ite_false]
        by_cases ht : 0 < ev.t / playDivisor speed
        · simp only [ht, if_true]
          rw [show a0 ++ acts ++ [PAct.sleep (ev.t / playDivisor speed)]
                ++ evActs vk sup ev
              = a0 ++ (acts ++ [PAct.sleep (ev.t / playDivisor speed)]
                ++ evActs vk sup ev) by simp [List.append_assoc]]
          exact ih a0 ⟨acts ++ [PAct.sleep (ev.t / playDivisor speed)]
                ++ evActs vk sup ev, false, idx + 1⟩
        · simp only [ht, if_false]
          rw [show a0 ++ acts ++ evActs vk sup ev
              = a0 ++ (acts ++ evActs vk sup ev) by simp [List.append_assoc]]
          exact ih a0 ⟨acts ++ evActs vk sup ev, false, idx + 1⟩

theorem playLoopsAux_shift (vk : String → Bool) (sup : List String) (speed : ℚ)
    (ab : ℕ → Bool) (evs : List REv) :
    ∀ (n : ℕ) (a0 : List PAct) (s : PSt),
      playLoopsAux vk sup speed ab evs n ⟨a0 ++ s.acts, s.flag, s.idx⟩
        = ⟨a0 ++ (playLoopsAux vk sup speed ab evs n s).acts,
           (playLoopsAux vk sup speed ab evs n s).flag,
           (playLoopsAux vk sup speed ab evs n s).idx⟩ := by
  intro n
  induction n with
  | zero => intro a0 s; rfl
  | succ n ih =>
      intro a0 s
      obtain ⟨acts, flag, idx⟩ := s
      simp only [playLoopsAux, pcheck]
      by_cases hf : (flag || ab idx) = true
      · simp [hf]
      · simp only [Bool.not_eq_true] at hf
        simp only [hf, Bool.false_eq_true, ite_false]
        rw [show (⟨a0 ++ acts, false, idx + 1⟩ : PSt)
              = ⟨a0 ++ PSt.acts ⟨acts, false, idx + 1⟩,
                 PSt.flag ⟨acts, false, idx + 1⟩,
                 PSt.idx ⟨acts, false, idx + 1⟩⟩ by rfl,
            playEvs_shift vk sup speed ab evs a0 ⟨acts, false, idx + 1⟩]
        rw [show (⟨a0 ++ (playEvs vk sup speed ab evs ⟨acts, false, idx + 1⟩).acts,
                 (playEvs vk sup speed ab evs ⟨acts, false, idx + 1⟩).flag,
                 (playEvs vk sup speed ab evs ⟨acts, false, idx + 1⟩).idx⟩ : PSt)
              = ⟨a0 ++ PSt.acts (playEvs vk sup speed ab evs ⟨acts, false, idx + 1⟩),
                 PSt.flag (playEvs vk sup speed ab evs ⟨acts, false, idx + 1⟩),
                 PSt.idx (playEvs vk sup speed ab evs ⟨acts, false, idx + 1⟩)⟩ by rfl]
        exact ih a0 (playEvs vk sup speed ab evs ⟨acts, false, idx + 1⟩)

theorem playEvs_acts_mem (vk : String → Bool) (sup : List String) (speed : ℚ)
    (ab : ℕ → Bool) :
    ∀ (evs : List REv) (s : PSt) (a : PAct),
      a ∈ (playEvs vk sup speed ab evs s).acts →
      a ∈ s.acts ∨ (∃ d, a = PAct.sleep d) ∨ ∃ e ∈ evs, a ∈ evActs vk sup e := by
  intro evs
  induction evs with
  | nil => intro s a ha; exact Or.inl ha
  | cons ev rest ih =>
      intro s a ha
      obtain ⟨acts, flag, idx⟩ := s
      simp only [playEvs, pcheck] at ha
      by_cases hf : (flag || ab idx) = true
      · simp only [hf, if_true] at ha
        exact Or.inl ha
      · simp only [Bool.not_eq_true] at hf
        simp only [hf, Bool.false_eq_true, ite_false] at ha
        by_cases ht : 0 < ev.t / playDivisor speed
        · simp only [ht, if_true] at ha
          rcases ih _ a ha with h | h | ⟨e, he, hae⟩
          · simp only [List.mem_append, List.mem_singleton] at h
            rcases h with (h | h) | h
            · exact Or.inl h
            · exact Or.inr (Or.inl ⟨_, h⟩)
            · exact Or.inr (Or.inr ⟨ev, List.mem_cons_self .., h⟩)
          · exact Or.inr (Or.inl h)
          · exact Or.inr (Or.inr ⟨e, List.mem_cons_of_mem _ he, hae⟩)
        · simp only [ht, if_false] at ha
          rcases ih _ a ha with h | h | ⟨e, he, hae⟩
          · simp only [List.mem_append] at h
            rcases h with h | h
            · exact Or.inl h
            · exact Or.inr (Or.inr ⟨ev, List.mem_cons_self .., h⟩)
          · exact Or.inr (Or.inl h)
          · exact Or.inr (Or.inr ⟨e, List.mem_cons_of_mem _ he, hae⟩)

theorem playLoopsAux_acts_mem (vk : String → Bool) (sup : List String) (speed : ℚ)
    (ab : ℕ → Bool) (evs : List REv) :
    ∀ (n : ℕ) (s : PSt) (a : PAct),
      a ∈ (playLoopsAux vk sup speed ab evs n s).acts →
      a ∈ s.acts ∨ (∃ d, a = PAct.sleep d) ∨ ∃ e ∈ evs, a ∈ evActs vk sup e := by
  intro n
  induction n with
  | zero => intro s a ha; exact Or.inl ha
  | succ n ih =>
      intro s a ha
      obtain ⟨acts, flag, idx⟩ := s
      simp only [playLoopsAux, pcheck] at ha
      by_cases hf : (flag || ab idx) = true
      · simp only [hf, if_true] at ha
        exact Or.inl ha
      · simp only [Bool.not_eq_true] at hf
        simp only [hf, Bool.false_eq_true, ite_false] at ha
        rcases ih _ a ha with h | h | h
        · rcases playEvs_acts_mem vk sup speed ab evs _ a h with h' | h' | h'
          · exact Or.inl h'
          · exact Or.inr (Or.inl h')
          · exact Or.inr (Or.inr h')
        · exact Or.inr (Or.inl h)
        · exact Or.inr (Or.inr h)

theorem evActs_not_setPos (vk : String → Bool) (sup : List String) (e : REv)
    (hp : isPositional e = false) (x y : Int) :
    PAct.setPos x y ∉ evActs vk sup e := by
  cases e with
  | move t a b => simp [isPositional] at hp
  | click t a b c d => simp [isPositional] at hp
  | scroll t a b c d => simp [isPositional] at hp
  | key t p kind k =>
      cases kind with
      | char => cases p <;> simp [evActs]
      | special =>
          cases p <;> simp only [evActs] <;> split <;> simp

theorem firstXY_eq_find (evs : List REv) :
    firstXY evs = (evs.find? isPositional).bind coordsOf := by
  induction evs with
  | nil => rfl
  | cons e rest ih =>
      cases e <;> simp [firstXY, List.find?, isPositional, coordsOf, ih]

theorem firstXY_none_of_no_positional :
    ∀ evs : List REv, (∀ e ∈ evs, isPositional e = false) → firstXY evs = none := by
  intro evs h
  rw [firstXY_eq_find]
  rw [List.find?_eq_none.mpr]
  · rfl
  · intro e he
    simp [h e he]

/-- C4: for every input to `play`, the divisor applied to each event delay,
`max(0.001, speed)`, is strictly positive (no division by zero for any
`speed`); the loop count `max(1, loops)` treats every `loops < 1` as `1` and
equals `loops` otherwise; and absent cancellation a nonempty sequence is
replayed exactly `max(1, loops)` times — the emitted actions are the initial
pointer move followed by `loopCount loops` copies of one full pass over the
sequence. -/
theorem c4_speed_clamped_loops_replayed :
    (∀ speed : ℚ, 0 < playDivisor speed) ∧
    (∀ loops : Int, loops < 1 → loopCount loops = 1) ∧
    (∀ loops : Int, 1 ≤ loops → (loopCount loops : Int) = loops) ∧
    (∀ (evs : List REv) (speed : ℚ) (loops : Int) (sup : List String)
        (vk : String → Bool) (flag0 : Bool), evs ≠ [] →
        (playRun evs speed loops sup vk (fun _ => false) flag0).2
          = initMove evs
              ++ (List.replicate (loopCount loops) (oneLoop vk sup speed evs)).flatten) := by
  refine ⟨?_, ?_, ?_, ?_⟩
  · intro speed
    exact lt_of_lt_of_le (by norm_num) (le_max_left (1 / 1000) speed)
  · intro loops h
    rw [loopCount, max_eq_left h.le]
    rfl
  · intro loops h
    rw [loopCount, max_eq_right h, Int.toNat_of_nonneg (le_trans zero_le_one h)]
  · intro evs speed loops sup vk flag0 hne
    cases evs with
    | nil => exact absurd rfl hne
    | cons e rest =>
        show (playLoopsAux vk sup speed (fun _ => false) (e :: rest) (loopCount loops)
                ⟨initMove (e :: rest), false, 0⟩).acts = _
        rw [playLoopsAux_noabort vk sup speed (e :: rest) (loopCount loops)
              ⟨initMove (e :: rest), false, 0⟩ rfl]

/-- C4, witness: the theorem applied at concrete inputs — `loops = 0` is
replayed once, `loops = 3` thrice, and a concrete one-event macro at
`loops = 2` emits the initial move followed by two passes. -/
theorem c4_witness :
    ((0 : Int) < 1 ∧ loopCount 0 = 1) ∧
      ((1 : Int) ≤ 3 ∧ (loopCount 3 : Int) = 3) ∧
      (([REv.move 1 5 6] : List REv) ≠ [] ∧
        (playRun [REv.move 1 5 6] 1 2 [] (fun _ => true) (fun _ => false) false).2
          = initMove [REv.move 1 5 6]
              ++ (List.replicate (loopCount 2)
                    (oneLoop (fun _ => true) [] 1 [REv.move 1 5 6])).flatten) :=
  ⟨⟨by decide, c4_speed_clamped_loops_replayed.2.1 0 (by decide)⟩,
   ⟨by decide, c4_speed_clamped_loops_replayed.2.2.1 3 (by decide)⟩,
   ⟨by decide, c4_speed_clamped_loops_replayed.2.2.2 [REv.move 1 5 6] 1 2 []
      (fun _ => true) false (by decide)⟩⟩

/-- C8: before any event and before any sleep, a nonempty sequence's emitted
actions begin with the initial pointer move — `[setPos (x, y)]` for the
coordinates of the first positional event (the first `move`/`click`/`scroll`,
as `_first_xy` finds it), or nothing at all when the sequence has no
positional event, in which case no `setPos` is ever emitted. -/
theorem c8_initial_pointer_move :
    (∀ evs : List REv, firstXY evs = (evs.find? isPositional).bind coordsOf) ∧
    (∀ (evs : List REv) (speed : ℚ) (loops : Int) (sup : List String)
        (vk : String → Bool) (ab : ℕ → Bool) (flag0 : Bool), evs ≠ [] →
        (playRun evs speed loops sup vk ab flag0).2
          = initMove evs
              ++ (playLoopsAux vk sup speed ab evs (loopCount loops)
                    ⟨[], false, 0⟩).acts) ∧
    (∀ evs : List REv, (∀ e ∈ evs, isPositional e = false) → initMove evs = []) ∧
    (∀ (evs : List REv) (speed : ℚ) (loops : Int) (sup : List String)
        (vk : String → Bool) (ab : ℕ → Bool) (flag0 : Bool) (x y : Int),
        (∀ e ∈ evs, isPositional e = false) →
        PAct.setPos x y ∉ (playRun evs speed loops sup vk ab flag0).2) := by
  refine ⟨firstXY_eq_find, ?_, ?_, ?_⟩
  · intro evs speed loops sup vk ab flag0 hne
    cases evs with
    | nil => exact absurd rfl hne
    | cons e rest =>
        show (playLoopsAux vk sup speed ab (e :: rest) (loopCount loops)
                ⟨initMove (e :: rest), false, 0⟩).acts = _
        have h := playLoopsAux_shift vk sup speed ab (e :: rest) (loopCount loops)
          (initMove (e :: rest)) ⟨[], false, 0⟩
        simp only [List.append_nil] at h
        rw [h]
  · intro evs h
    rw [initMove, firstXY_none_of_no_positional evs h]
  · intro evs speed loops sup vk ab flag0 x y h hmem
    cases evs with
    | nil => simp [playRun] at hmem
    | cons e rest =>
        have hmem' : PAct.setPos x y
            ∈ (playLoopsAux vk sup speed ab (e :: rest) (loopCount loops)
                ⟨initMove (e :: rest), false, 0⟩).acts := hmem
        rcases playLoopsAux_acts_mem vk sup speed ab (e :: rest) (loopCount loops)
            ⟨initMove (e :: rest), false, 0⟩ (PAct.setPos x y) hmem' with hi | ⟨d, hd⟩ | ⟨ev, hev, ha⟩
        · rw [show initMove (e :: rest) = [] by
              rw [initMove, firstXY_none_of_no_positional (e :: rest) h]] at hi
          exact absurd hi (List.not_mem_nil _)
        · exact PAct.noConfusion hd
        · exact evActs_not_setPos vk sup ev (h ev hev) x y ha

/-- C8, witness: a key-only sequence emits no pointer move at all; a
sequence led by a move event begins with that move. -/
theorem c8_witness :
    (([REv.key 0 true KKind.char "a"] : List REv) ≠ [] ∧
        (playRun [REv.key 0 true KKind.char "a"] 1 1 [] (fun _ => true)
            (fun _ => false) false).2
          = initMove [REv.key 0 true KKind.char "a"]
              ++ (playLoopsAux (fun _ => true) [] 1 (fun _ => false)
                    [REv.key 0 true KKind.char "a"] (loopCount 1)
                    ⟨[], false, 0⟩).acts) ∧
      ((∀ e ∈ ([REv.key 0 true KKind.char "a"] : List REv), isPositional e = false) ∧
        PAct.setPos 1 2
          ∉ (playRun [REv.key 0 true KKind.char "a"] 1 1 [] (fun _ => true)
              (fun _ => false) false).2) :=
  ⟨⟨by decide, c8_initial_pointer_move.2.1 [REv.key 0 true KKind.char "a"] 1 1 []
      (fun _ => true) (fun _ => false) false (by decide)⟩,
   ⟨by decide, c8_initial_pointer_move.2.2.2 [REv.key 0 true KKind.char "a"] 1 1 []
      (fun _ => true) (fun _ => false) false 1 2 (by decide)⟩⟩

/-- C9: on a nonempty sequence `play` clears the shared stop flag at entry,
before the first flag check and before any event: its entire behaviour is
independent of the flag value left by any abort requested while no playback
was running, and with no abort during playback the flag ends clear and
playback runs to completion; on an empty sequence `play` returns before the
clear, leaving the stale flag value in place (and applying nothing). -/
theorem c9_entry_clears_stale_abort :
    (∀ (evs : List REv) (speed : ℚ) (loops : Int) (sup : List String)
        (vk : String → Bool) (ab : ℕ → Bool) (flag0 flag1 : Bool), evs ≠ [] →
        playRun evs speed loops sup vk ab flag0
          = playRun evs speed loops sup vk ab flag1) ∧
    (∀ (evs : List REv) (speed : ℚ) (loops : Int) (sup : List String)
        (vk : String → Bool) (flag0 : Bool), evs ≠ [] →
        (playRun evs speed loops sup vk (fun _ => false) flag0).1 = false) ∧
    (∀ (speed : ℚ) (loops : Int) (sup : List String) (vk : String → Bool)
        (ab : ℕ → Bool) (flag0 : Bool),
        playRun [] speed loops sup vk ab flag0 = (flag0, [])) := by
  refine ⟨?_, ?_, ?_⟩
  · intro evs speed loops sup vk ab flag0 flag1 hne
    cases evs with
    | nil => exact absurd rfl hne
    | cons e rest => rfl
  · intro evs speed loops sup vk flag0 hne
    cases evs with
    | nil => exact absurd rfl hne
    | cons e rest =>
        show (playLoopsAux vk sup speed (fun _ => false) (e :: rest) (loopCount loops)
                ⟨initMove (e :: rest), false, 0⟩).flag = false
        rw [playLoopsAux_noabort vk sup speed (e :: rest) (loopCount loops)
              ⟨initMove (e :: rest), false, 0⟩ rfl]
  · intro speed loops sup vk ab flag0
    rfl

/-- C9, witness: a stale abort flag from before the call does not change a
concrete playback, and with no abort the flag ends clear. -/
theorem c9_witness :
    (([REv.move 0 1 1] : List REv) ≠ [] ∧
        playRun [REv.move 0 1 1] 1 1 [] (fun _ => true) (fun _ => false) true
          = playRun [REv.move 0 1 1] 1 1 [] (fun _ => true) (fun _ => false) false) ∧
      (playRun [REv.move 0 1 1] 1 1 [] (fun _ => true) (fun _ => false) true).1
        = false :=
  ⟨⟨by decide, c9_entry_clears_stale_abort.1 [REv.move 0 1 1] 1 1 [] (fun _ => true)
      (fun _ => false) true false (by decide)⟩,
   c9_entry_clears_stale_abort.2.1 [REv.move 0 1 1] 1 1 [] (fun _ => true) true
     (by decide)⟩

/-! ### Recorder lemmas -/

theorem dtOf_nonneg (lt : Option ℚ) (n : ℚ) (h : ∀ t, lt = some t → t ≤ n) :
    0 ≤ Macro.dtOf lt n := by
  cases lt with
  | none => simp [Macro.dtOf]
  | some t =>
      by_cases ht : t = 0
      · simp [Macro.dtOf, ht]
      · simp only [Macro.dtOf, ht, if_false]
        linarith [h t rfl]

theorem evT_encode (r : REv) : evT (encodeEv r) = r.t := by
  rw [evT, decodeEv_encodeEv]

theorem sumT_append_one (ys : List PyVal) (e : PyVal) :
    sumT (ys ++ [e]) = sumT ys + evT e := by
  simp [sumT]

theorem allDelaysNonneg_append_one (ys : List PyVal) (r : REv)
    (h : allDelaysNonneg ys) (hr : 0 ≤ r.t) :
    allDelaysNonneg (ys ++ [encodeEv r]) := by
  intro e he
  rcases List.mem_append.mp he with h1 | h1
  · exact h e h1
  · rcases List.mem_singleton.mp h1 with rfl
    exact ⟨r, decodeEv_encodeEv r, hr⟩

theorem notify_invNN (m : Macro) (n lo : ℚ) (rv : ℚ → REv) (h : InvNN lo m)
    (hle : lo ≤ n) (hrt : ∀ dt, REv.t (rv dt) = dt) :
    ∃ m', Macro.notify m n (fun dt => encodeEv (rv dt)) = some m' ∧ InvNN n m' := by
  obtain ⟨hts, xs, hxs, hnn⟩ := h
  have hdt : 0 ≤ Macro.dtOf m.lastTs n :=
    dtOf_nonneg m.lastTs n (fun t ht => le_trans (hts t ht) hle)
  rw [Macro.notify, Macro.recItem]
  by_cases hc : (!({ m with lastTs := some n } : Macro).recording
      || ({ m with lastTs := some n } : Macro).paused) = true
  · rw [if_pos hc]
    refine ⟨_, rfl, ?_, xs, hxs, hnn⟩
    intro t ht
    simp only [Option.some.injEq] at ht
    exact ht ▸ le_refl n
  · rw [if_neg hc]
    simp only [hxs]
    refine ⟨_, rfl, ?_, xs ++ [encodeEv (rv (Macro.dtOf m.lastTs n))], rfl, ?_⟩
    · intro t ht
      simp only [Option.some.injEq] at ht
      exact ht ▸ le_refl n
    · exact allDelaysNonneg_append_one xs _ hnn (by rw [hrt]; exact hdt)

theorem invNN_step (m : Macro) (a : RecAct) (lo : ℚ) (h : InvNN lo m)
    (hle : ∀ n, a.time? = some n → lo ≤ n) :
    ∃ m', Macro.step m a = some m' ∧ InvNN (RecAct.timeOr a lo) m' := by
  obtain ⟨hts, xs, hxs, hnn⟩ := h
  cases a with
  | start n =>
      refine ⟨_, rfl, ?_⟩
      rw [Macro.startRecording]
      by_cases hr : m.recording = true
      · rw [if_pos hr]
        exact ⟨fun t ht => le_trans (hts t ht) (hle n rfl), xs, hxs, hnn⟩
      · rw [if_neg hr]
        exact ⟨fun t ht => by simp only [Option.some.injEq] at ht; exact ht ▸ le_refl n,
               [], rfl, fun e he => absurd he (List.not_mem_nil e)⟩
  | stop =>
      refine ⟨_, rfl, ?_⟩
      rw [Macro.stopRecording]
      by_cases hr : m.recording = true
      · rw [if_pos hr]; exact ⟨hts, xs, hxs, hnn⟩
      · rw [if_neg hr]; exact ⟨hts, xs, hxs, hnn⟩
  | pauseToggle n =>
      refine ⟨_, rfl, ?_⟩
      rw [Macro.pauseToggle]
      by_cases hr : m.recording = true
      · rw [if_pos hr]
        exact ⟨fun t ht => by simp only [Option.some.injEq] at ht; exact ht ▸ le_refl n,
               xs, hxs, hnn⟩
      · rw [if_neg hr]
        exact ⟨fun t ht => le_trans (hts t ht) (hle n rfl), xs, hxs, hnn⟩
  | moveN n x y =>
      exact notify_invNN m n lo (fun dt => .move dt x y) ⟨hts, xs, hxs, hnn⟩
        (hle n rfl) (fun dt => rfl)
  | clickN n x y b p =>
      exact notify_invNN m n lo (fun dt => .click dt x y b p) ⟨hts, xs, hxs, hnn⟩
        (hle n rfl) (fun dt => rfl)
  | scrollN n x y dx dy =>
      exact notify_invNN m n lo (fun dt => .scroll dt x y dx dy) ⟨hts, xs, hxs, hnn⟩
        (hle n rfl) (fun dt => rfl)
  | keyN n pr kid kind k =>
      rw [Macro.step, Macro.onKey]
      by_cases hk : kid ∈ m.controlKeys
      · rw [if_pos hk]
        exact ⟨m, rfl, fun t ht => le_trans (hts t ht) (hle n rfl), xs, hxs, hnn⟩
      · rw [if_neg hk]
        exact notify_invNN m n lo (fun dt => .key dt pr kind k) ⟨hts, xs, hxs, hnn⟩
          (hle n rfl) (fun dt => rfl)

theorem run_invNN :
    ∀ (tr : List RecAct) (m : Macro) (lo : ℚ), InvNN lo m → monoB lo tr = true →
      ∃ m' lo', Macro.run m tr = some m' ∧ InvNN lo' m' := by
  intro tr
  induction tr with
  | nil => intro m lo h _; exact ⟨m, lo, rfl, h⟩
  | cons a rest ih =>
      intro m lo h hm
      cases ha : a.time? with
      | none =>
          have hm' : monoB lo rest = true := by
            rw [monoB, ha] at hm; exact hm
          obtain ⟨m1, h1, hinv⟩ := invNN_step m a lo h
            (fun n hn => absurd (ha ▸ hn) (by simp))
          rw [RecAct.timeOr, ha] at hinv
          obtain ⟨m', lo', h2, hinv'⟩ := ih m1 lo hinv hm'
          exact ⟨m', lo', by rw [Macro.run, h1]; exact h2, hinv'⟩
      | some n =>
          rw [monoB, ha, Bool.and_eq_true, decide_eq_true_eq] at hm
          obtain ⟨hlon, hm'⟩ := hm
          obtain ⟨m1, h1, hinv⟩ := invNN_step m a lo h
            (fun n' hn => by rw [ha] at hn; exact (Option.some.inj hn) ▸ hlon)
          rw [RecAct.timeOr, ha] at hinv
          obtain ⟨m', lo', h2, hinv'⟩ := ih m1 n hinv hm'
          exact ⟨m', lo', by rw [Macro.run, h1]; exact h2, hinv'⟩

theorem notify_invResume (m : Macro) (n r lo : ℚ) (rv : ℚ → REv)
    (xs0 : List PyVal) (h : InvResume r lo xs0 m) (hle : lo ≤ n)
    (hrt : ∀ dt, REv.t (rv dt) = dt) :
    ∃ m', Macro.notify m n (fun dt => encodeEv (rv dt)) = some m' ∧
      InvResume r n xs0 m' := by
  obtain ⟨t, ht, hrt', htlo, htpos, ys, hys, hnn, hsum⟩ := h
  have hdt : Macro.dtOf m.lastTs n = n - t := by
    rw [ht, Macro.dtOf, if_neg (ne_of_gt htpos)]
  rw [Macro.notify, Macro.recItem]
  by_cases hc : (!({ m with lastTs := some n } : Macro).recording
      || ({ m with lastTs := some n } : Macro).paused) = true
  · rw [if_pos hc]
    exact ⟨_, rfl, n, rfl, le_trans hrt' (le_trans htlo hle), le_refl n,
           lt_of_lt_of_le htpos (le_trans htlo hle), ys, hys, hnn,
           le_trans hsum (by linarith [le_trans htlo hle])⟩
  · rw [if_neg hc]
    simp only [hys]
    refine ⟨_, rfl, n, rfl, le_trans hrt' (le_trans htlo hle), le_refl n,
            lt_of_lt_of_le htpos (le_trans htlo hle),
            ys ++ [encodeEv (rv (Macro.dtOf m.lastTs n))],
            by rw [List.append_assoc], ?_, ?_⟩
    · exact allDelaysNonneg_append_one ys _ hnn
        (by rw [hrt, hdt]; linarith [le_trans htlo hle])
    · rw [sumT_append_one, evT_encode, hrt, hdt]
      have : t ≤ n := le_trans htlo hle
      linarith

theorem invResume_step (m : Macro) (a : RecAct) (r lo : ℚ) (xs0 : List PyVal)
    (h : InvResume r lo xs0 m) (hle : ∀ n, a.time? = some n → lo ≤ n)
    (hns : ∀ n, a ≠ RecAct.start n) :
    ∃ m', Macro.step m a = some m' ∧ InvResume r (RecAct.timeOr a lo) xs0 m' := by
  obtain ⟨t, ht, hrt', htlo, htpos, ys, hys, hnn, hsum⟩ := h
  cases a with
  | start n => exact absurd rfl (hns n)
  | stop =>
      refine ⟨_, rfl, ?_⟩
      rw [Macro.stopRecording]
      by_cases hr : m.recording = true
      · rw [if_pos hr]
        exact ⟨t, ht, hrt', htlo, htpos, ys, hys, hnn, hsum⟩
      · rw [if_neg hr]
        exact ⟨t, ht, hrt', htlo, htpos, ys, hys, hnn, hsum⟩
  | pauseToggle n =>
      have hlon : t ≤ n := le_trans htlo (hle n rfl)
      refine ⟨_, rfl, ?_⟩
      rw [Macro.pauseToggle]
      by_cases hr : m.recording = true
      · rw [if_pos hr]
        exact ⟨n, rfl, le_trans hrt' hlon, le_refl n, lt_of_lt_of_le htpos hlon,
               ys, hys, hnn, le_trans hsum (by linarith)⟩
      · rw [if_neg hr]
        exact ⟨t, ht, hrt', hlon, htpos, ys, hys, hnn, hsum⟩
  | moveN n x y =>
      exact notify_invResume m n r lo (fun dt => .move dt x y) xs0
        ⟨t, ht, hrt', htlo, htpos, ys, hys, hnn, hsum⟩ (hle n rfl) (fun dt => rfl)
  | clickN n x y b p =>
      exact notify_invResume m n r lo (fun dt => .click dt x y b p) xs0
        ⟨t, ht, hrt', htlo, htpos, ys, hys, hnn, hsum⟩ (hle n rfl) (fun dt => rfl)
  | scrollN n x y dx dy =>
      exact notify_invResume m n r lo (fun dt => .scroll dt x y dx dy) xs0
        ⟨t, ht, hrt', htlo, htpos, ys, hys, hnn, hsum⟩ (hle n rfl) (fun dt => rfl)
  | keyN n pr kid kind k =>
      rw [Macro.step, Macro.onKey]
      by_cases hk : kid ∈ m.controlKeys
      · rw [if_pos hk]
        exact ⟨m, rfl, t, ht, hrt', le_trans htlo (hle n rfl), htpos,
               ys, hys, hnn, hsum⟩
      · rw [if_neg hk]
        exact notify_invResume m n r lo (fun dt => .key dt pr kind k) xs0
          ⟨t, ht, hrt', htlo, htpos, ys, hys, hnn, hsum⟩ (hle n rfl) (fun dt => rfl)

theorem run_invResume :
    ∀ (tr : List RecAct) (m : Macro) (r lo : ℚ) (xs0 : List PyVal),
      InvResume r lo xs0 m → monoB lo tr = true → noStartB tr = true →
      ∃ m' lo', Macro.run m tr = some m' ∧ InvResume r lo' xs0 m' := by
  intro tr
  induction tr with
  | nil => intro m r lo xs0 h _ _; exact ⟨m, lo, rfl, h⟩
  | cons a rest ih =>
      intro m r lo xs0 h hm hns
      have hnsa : ∀ n, a ≠ RecAct.start n := by
        intro n he
        subst he
        simp [noStartB] at hns
      have hnsr : noStartB rest = true := by
        cases a with
        | start n => exact absurd rfl (hnsa n)
        | stop => exact hns
        | pauseToggle _ => exact hns
        | moveN _ _ _ => exact hns
        | clickN _ _ _ _ _ => exact hns
        | scrollN _ _ _ _ _ => exact hns
        | keyN _ _ _ _ _ => exact hns
      cases ha : a.time? with
      | none =>
          have hm' : monoB lo rest = true := by
            rw [monoB, ha] at hm; exact hm
          obtain ⟨m1, h1, hinv⟩ := invResume_step m a r lo xs0 h
            (fun n hn => absurd (ha ▸ hn) (by simp)) hnsa
          rw [RecAct.timeOr, ha] at hinv
          obtain ⟨m', lo', h2, hinv'⟩ := ih m1 r lo xs0 hinv hm' hnsr
          exact ⟨m', lo', by rw [Macro.run, h1]; exact h2, hinv'⟩
      | some n =>
          rw [monoB, ha, Bool.and_eq_true, decide_eq_true_eq] at hm
          obtain ⟨hlon, hm'⟩ := hm
          obtain ⟨m1, h1, hinv⟩ := invResume_step m a r lo xs0 h
            (fun n' hn => by rw [ha] at hn; exact (Option.some.inj hn) ▸ hlon) hnsa
          rw [RecAct.timeOr, ha] at hinv
          obtain ⟨m', lo', h2, hinv'⟩ := ih m1 r n xs0 hinv hm' hnsr
          exact ⟨m', lo', by rw [Macro.run, h1]; exact h2, hinv'⟩

/-- C1 (amended): while recording is paused, incoming notifications are
dropped — nothing is appended — but `lastEventTimestamp` (`_last_ts`) IS
updated by each dropped notification, because `_dt` runs before the paused
check; toggling pause back off resets `_last_ts` to the resume instant;
consequently, over any serialized monotone trace from a fresh recorder every
recorded delay is nonnegative, and after a resume at instant `r` the events
recorded afterwards are exactly the appended suffix, each with nonnegative
delay, and their total delay is at most `_last_ts − r` — so no recorded
delay includes any part of the interval that ended at the resume. -/
theorem c1_pause_resume_delays :
    (∀ (m : Macro) (now : ℚ) (x y : Int), m.recording = true → m.paused = true →
        Macro.onMove m now x y = some { m with lastTs := some now }) ∧
    (∀ (m : Macro) (now : ℚ), m.recording = true →
        (m.pauseToggle now).lastTs = some now ∧
          (m.pauseToggle now).paused = !m.paused) ∧
    (∀ (lo : ℚ) (tr : List RecAct) (m' : Macro), monoB lo tr = true →
        Macro.run Macro.init tr = some m' →
        ∃ xs, m'.events = PyVal.plist xs ∧ allDelaysNonneg xs) ∧
    (∀ (m : Macro) (xs0 : List PyVal) (r : ℚ) (tr : List RecAct) (m' : Macro),
        m.recording = true → m.paused = true → m.events = PyVal.plist xs0 →
        0 < r → monoB r tr = true → noStartB tr = true →
        Macro.run (m.pauseToggle r) tr = some m' →
        ∃ t ys, m'.lastTs = some t ∧ r ≤ t ∧
          m'.events = PyVal.plist (xs0 ++ ys) ∧ allDelaysNonneg ys ∧
          sumT ys ≤ t - r) := by
  refine ⟨?_, ?_, ?_, ?_⟩
  · intro m now x y hrec hp
    simp [Macro.onMove, Macro.notify, Macro.recItem, hp]
  · intro m now hrec
    simp [Macro.pauseToggle, hrec]
  · intro lo tr m' hm hrun
    obtain ⟨m'', lo', hrun', hinv⟩ := run_invNN tr Macro.init lo
      ⟨fun t ht => absurd ht (by simp [Macro.init]), [], rfl,
       fun e he => absurd he (List.not_mem_nil e)⟩ hm
    rw [hrun] at hrun'
    obtain rfl := Option.some.inj hrun'
    exact hinv.2
  · intro m xs0 r tr m' hrec hp hev hr hm hns hrun
    have hinit : InvResume r r xs0 (m.pauseToggle r) := by
      rw [Macro.pauseToggle, if_pos hrec]
      exact ⟨r, rfl, le_refl r, le_refl r, hr, [], by simp [hev],
             fun e he => absurd he (List.not_mem_nil e), by simp [sumT]⟩
    obtain ⟨m'', lo', hrun', hinv⟩ :=
      run_invResume tr (m.pauseToggle r) r r xs0 hinit hm hns
    rw [hrun] at hrun'
    obtain rfl := Option.some.inj hrun'
    obtain ⟨t, ht, hrt', _, _, ys, hys, hnn, hsum⟩ := hinv
    exact ⟨t, ys, ht, hrt', hys, hnn, hsum⟩

/-- C1, counterexample to the claim as stated: start recording at instant 5,
pause at 10, and let a pointer-move notification arrive at 20 while paused —
the notification is indeed dropped (events unchanged), but `_last_ts` moves
from 10 to 20: the claim that a dropped notification does NOT update
`lastEventTimestamp` is false of the code (`_dt` runs unconditionally before
`_rec` checks `paused`). -/
theorem c1_counterexample :
    ∃ m0 m1 : Macro,
      Macro.run Macro.init [RecAct.start 5, RecAct.pauseToggle 10] = some m0 ∧
      Macro.step m0 (RecAct.moveN 20 3 4) = some m1 ∧
      m1.events = m0.events ∧
      m0.lastTs = some 10 ∧ m1.lastTs = some 20 ∧ (10 : ℚ) ≠ 20 :=
  ⟨_, _, rfl, rfl, rfl, rfl, rfl, by decide⟩

/-- C1, witness: the amended theorem applied at concrete inputs — a
recording paused with anchor 10 resumes at 20 and records one move at 30,
whose delay (10) is nonnegative and excludes the paused interval; and a
fresh recorder run start-then-move yields only nonnegative delays. -/
theorem c1_witness :
    ((0 : ℚ) < 20 ∧ monoB 20 [RecAct.moveN 30 1 2] = true ∧
        noStartB [RecAct.moveN 30 1 2] = true ∧
        Macro.run
            ((⟨PyVal.plist [], true, true, some 10, false, []⟩ : Macro).pauseToggle 20)
            [RecAct.moveN 30 1 2]
          = some ⟨PyVal.plist [encodeEv (REv.move 10 1 2)], true, false,
                  some 30, false, []⟩ ∧
        (∃ t ys,
          (⟨PyVal.plist [encodeEv (REv.move 10 1 2)], true, false,
              some 30, false, []⟩ : Macro).lastTs = some t ∧ (20 : ℚ) ≤ t ∧
          (⟨PyVal.plist [encodeEv (REv.move 10 1 2)], true, false,
              some 30, false, []⟩ : Macro).events = PyVal.plist ([] ++ ys) ∧
          allDelaysNonneg ys ∧ sumT ys ≤ t - 20)) ∧
      (monoB 0 [RecAct.start 5, RecAct.moveN 6 1 2] = true ∧
        ∃ xs,
          (⟨PyVal.plist [encodeEv (REv.move 1 1 2)], true, false,
              some 6, false, []⟩ : Macro).events = PyVal.plist xs ∧
          allDelaysNonneg xs) :=
  ⟨⟨by decide, by decide, rfl,
    by norm_num [Macro.run, Macro.step, Macro.onMove, Macro.notify, Macro.recItem,
                 Macro.dtOf, Macro.pauseToggle],
    c1_pause_resume_delays.2.2.2 ⟨PyVal.plist [], true, true, some 10, false, []⟩
      [] 20 [RecAct.moveN 30 1 2]
      ⟨PyVal.plist [encodeEv (REv.move 10 1 2)], true, false, some 30, false, []⟩
      rfl rfl rfl (by decide) (by decide) rfl
      (by norm_num [Macro.run, Macro.step, Macro.onMove, Macro.notify, Macro.recItem,
                    Macro.dtOf, Macro.pauseToggle])⟩,
   ⟨by decide,
    c1_pause_resume_delays.2.2.1 0 [RecAct.start 5, RecAct.moveN 6 1 2]
      ⟨PyVal.plist [encodeEv (REv.move 1 1 2)], true, false, some 6, false, []⟩
      (by decide)
      (by norm_num [Macro.run, Macro.step, Macro.onMove, Macro.notify, Macro.recItem,
                    Macro.dtOf, Macro.startRecording, Macro.init])⟩⟩

end TinySchedule
